import Mathlib

/-!
Verification of the Metafora consumer core, shallowly embedded from the Go
source (`client.go`, `balancer.go`, the task-type mux and the resource
balancer).  Machine integers are modelled as `Nat`/`Int`; `time.Time` values
are modelled as `Nat` (0 is the zero time); `float64` thresholds are modelled
as `ℚ`.  Goroutine-level concurrency protected by the running-map mutex is
modelled at mutex granularity: every critical section is one atomic step.
-/

namespace Metafora

/-- First-match association-list lookup, modelling Go map indexing
(`m[k]` with the comma-ok idiom). -/
def lookupKey {α : Type} : List (String × α) → String → Option α
  | [], _ => none
  | p :: ps, k => if p.1 = k then some p.2 else lookupKey ps k

/-- Go map indexing without comma-ok: a missing key yields the zero value. -/
def lookupKeyD {α : Type} (l : List (String × α)) (k : String) (d : α) : α :=
  (lookupKey l k).getD d

theorem lookupKey_filter_self {α : Type} (l : List (String × α)) (tid : String) :
    lookupKey (l.filter (fun p => p.1 ≠ tid)) tid = none := by
  induction l with
  | nil => rfl
  | cons p ps ih =>
    by_cases hp : p.1 = tid
    · simpa [List.filter_cons, hp] using ih
    · simp only [decide_not] at ih
      simp [List.filter_cons, hp, lookupKey, ih]

theorem mem_keys_filter {α : Type} (l : List (String × α)) (f : String × α → Bool)
    (tid : String) (h : tid ∈ (l.filter f).map Prod.fst) : tid ∈ l.map Prod.fst := by
  rcases List.mem_map.mp h with ⟨p, hp, hpe⟩
  exact hpe ▸ List.mem_map_of_mem Prod.fst (List.mem_of_mem_filter hp)

/-- The per-task state Metafora tracks internally (`runningtask` in the
source): id, `started` timestamp and `stopped` timestamp (0 until `Stop()` is
first called, mirroring `time.Time.IsZero`). -/
structure RTask where
  id : String
  started : Nat
  stopped : Nat
deriving DecidableEq, Repr

/-- Calls the consumer makes on its Coordinator, recorded as a trace. -/
inductive CoordCall where
  | claim (tid : String)
  | done (tid : String)
  | release (tid : String)
deriving DecidableEq, Repr

/-- Consumer state relevant to acceptance and handler exit: the running map
(association list keyed by task ID), whether the `stop` channel has been
closed, and the trace of coordinator calls made so far. -/
structure CState where
  running : List (String × RTask)
  stopClosed : Bool
  calls : List CoordCall
deriving DecidableEq, Repr

/-- Outcome of a handler's `Run` method: a normal return carrying the `done`
boolean, or an abnormal abort recovered by the consumer. -/
inductive HandlerResult where
  | ret (done : Bool)
  | crashed
deriving DecidableEq, Repr

/-- Whether `Consumer.claimed` accepts the task: the source re-checks the
`stop` channel under the `runL` mutex and then rejects duplicates already in
`c.running`. -/
def accepts (st : CState) (tid : String) : Bool :=
  !st.stopClosed && (lookupKey st.running tid).isNone

/-- `Consumer.claimed` (client.go): under `runL`, return without inserting if
`stop` is closed or the ID is already running; otherwise insert a fresh
`runningtask` started now.  The returned Bool is whether a handler goroutine
was spawned. -/
def claimed (st : CState) (tid : String) (now : Nat) : CState × Bool :=
  if st.stopClosed then (st, false)
  else if (lookupKey st.running tid).isSome then (st, false)
  else ({ st with running := st.running ++ [(tid, ⟨tid, now, 0⟩)] }, true)

/-- The `done` value `Consumer.runTask` produces: the handler's own return
value on a normal return; `true` when the handler aborted abnormally, because
the deferred recover sets `done = true` so a crashing task is not
rescheduled. -/
def runTaskDone : HandlerResult → Bool
  | .ret d => d
  | .crashed => true

/-- The running-map removal `Consumer.runTask` performs in its deferred block
(the only place tasks are removed from `c.running`), before the handler
goroutine calls `Done`/`Release`. -/
def runTaskRemove (st : CState) (tid : String) : CState :=
  { st with running := st.running.filter (fun p => p.1 ≠ tid) }

/-- The tail of the handler goroutine spawned by `Consumer.claimed`: run the
handler via `runTask` — which removes the task from `c.running` in its
deferred block — and then call `coord.Done` if `done` and `coord.Release`
otherwise. -/
def handlerExit (st : CState) (tid : String) (res : HandlerResult) : CState :=
  { runTaskRemove st tid with
    calls := st.calls ++
      [if runTaskDone res then CoordCall.done tid else CoordCall.release tid] }

/-- The lifecycle of one successful `coord.Claim` in the main loop's task
branch: the `Claim` call is recorded, `claimed` runs the acceptance checks,
and only if a handler goroutine was spawned does it later exit through
`handlerExit`. -/
def claimAndRun (st : CState) (tid : String) (now : Nat) (res : HandlerResult) : CState :=
  let st0 : CState := { st with calls := st.calls ++ [.claim tid] }
  let p := claimed st0 tid now
  if p.2 then handlerExit p.1 tid res else p.1

/-- Number of `Done`/`Release` calls for a given task ID in a trace. -/
def drCount (calls : List CoordCall) (tid : String) : Nat :=
  calls.countP (fun c => c = CoordCall.done tid ∨ c = CoordCall.release tid)

/-- C1 counterexample: with the stop signal already closed, a task whose
`Claim` succeeded is not accepted and the consumer calls neither `Done` nor
`Release` for it — the trace holds only the `Claim` call, so "exactly one of
`Done` or `Release` is subsequently called" fails on this acceptance path. -/
theorem c1_counterexample :
    (claimAndRun ⟨[], true, []⟩ "t1" 0 (.ret true)).calls = [CoordCall.claim "t1"] ∧
    ¬ drCount (claimAndRun ⟨[], true, []⟩ "t1" 0 (.ret true)).calls "t1" = 1 := by
  constructor
  · rfl
  · decide

/-- C1 amended: for every successful `Claim`, exactly one of `Done`/`Release`
is subsequently called when the task is accepted to the running map, and
neither is called when acceptance is refused (stop already signalled, or a
handler for the same ID already running). -/
theorem c1_done_release_iff_accepted (st : CState) (tid : String) (now : Nat)
    (res : HandlerResult) :
    drCount (claimAndRun st tid now res).calls tid =
      drCount st.calls tid + (if accepts st tid then 1 else 0) := by
  cases hs : st.stopClosed with
  | true =>
    simp [claimAndRun, claimed, accepts, hs, drCount, List.countP_append]
  | false =>
    cases hl : lookupKey st.running tid with
    | some rt =>
      simp [claimAndRun, claimed, accepts, hs, hl, drCount, List.countP_append]
    | none =>
      cases hres : runTaskDone res with
      | true =>
        simp [claimAndRun, claimed, accepts, hs, hl, handlerExit, runTaskRemove,
          hres, drCount, List.countP_append, List.countP_cons]
      | false =>
        simp [claimAndRun, claimed, accepts, hs, hl, handlerExit, runTaskRemove,
          hres, drCount, List.countP_append, List.countP_cons]

/-- C2: when an accepted handler's `Run` returns normally, the consumer
appends exactly one coordinator call — `Done` on `true`, `Release` on
`false` — and the task has been removed from the running map (removal happens
in `runTask`'s deferred block, before the coordinator call, as reflected in
`handlerExit` being built from `runTaskRemove`) before the handler goroutine
exits. -/
theorem c2_done_on_true_release_on_false (st : CState) (tid : String) (b : Bool) :
    (handlerExit st tid (.ret b)).calls =
      st.calls ++ [if b then CoordCall.done tid else CoordCall.release tid] ∧
    lookupKey (handlerExit st tid (.ret b)).running tid = none ∧
    (runTaskRemove st tid).calls = st.calls := by
  refine ⟨by cases b <;> rfl, ?_, rfl⟩
  exact lookupKey_filter_self st.running tid

/-- C3: when an accepted handler's `Run` aborts abnormally, the recover block
treats the outcome as `done = true` and the consumer calls `Done` (never
`Release`), so the crashing task is not rescheduled. -/
theorem c3_crash_calls_done (st : CState) (tid : String) :
    runTaskDone .crashed = true ∧
    (handlerExit st tid .crashed).calls = st.calls ++ [CoordCall.done tid] := by
  exact ⟨rfl, rfl⟩

/-- Events touching the running map, each a critical section of the `runL`
mutex: `Consumer.close` (closes `stop` under `runL`), an acceptance attempt
(`Consumer.claimed`), and a handler exit. -/
inductive CEvent where
  | closeStop
  | tryStart (tid : String) (now : Nat)
  | hexit (tid : String) (res : HandlerResult)

/-- One atomic critical section on the consumer state. -/
def cstep (st : CState) : CEvent → CState
  | .closeStop => { st with stopClosed := true }
  | .tryStart tid now => (claimed st tid now).1
  | .hexit tid res => handlerExit st tid res

/-- A sequence of critical sections. -/
def crun (st : CState) (evs : List CEvent) : CState := evs.foldl cstep st

theorem cstep_stopClosed (st : CState) (e : CEvent) (h : st.stopClosed = true) :
    (cstep st e).stopClosed = true := by
  cases e with
  | closeStop => rfl
  | tryStart tid now => simp [cstep, claimed, h]
  | hexit tid res => exact h

theorem cstep_no_insert (st : CState) (e : CEvent) (h : st.stopClosed = true) :
    ∀ tid, tid ∈ (cstep st e).running.map Prod.fst → tid ∈ st.running.map Prod.fst := by
  intro tid hm
  cases e with
  | closeStop => exact hm
  | tryStart t now =>
    simp only [cstep, claimed, h, if_pos, ite_true] at hm
    exact hm
  | hexit t res =>
    exact mem_keys_filter st.running _ tid hm

/-- C5: once the stop signal has been closed no new entry is ever inserted
into the running map — over any sequence of critical sections (acceptances,
handler exits, further closes) the set of running task IDs only shrinks,
because the acceptance path re-checks `stop` under the same `runL` mutex under
which `close` closes it. -/
theorem c5_no_insert_after_stop (st : CState) (h : st.stopClosed = true)
    (evs : List CEvent) :
    ∀ tid, tid ∈ (crun st evs).running.map Prod.fst → tid ∈ st.running.map Prod.fst := by
  induction evs generalizing st with
  | nil => intro tid hm; exact hm
  | cons e es ih =>
    intro tid hm
    have h1 : (cstep st e).stopClosed = true := cstep_stopClosed st e h
    have h2 := ih (cstep st e) h1 tid hm
    exact cstep_no_insert st e h tid h2

/-- C5 witness: concretely, with the stop signal closed and task `a` running,
an acceptance attempt for `b` followed by a close and another acceptance leaves
only IDs that were already running. -/
theorem c5_witness :
    (⟨[("a", ⟨"a", 1, 0⟩)], true, []⟩ : CState).stopClosed = true ∧
    ∀ tid, tid ∈ (crun ⟨[("a", ⟨"a", 1, 0⟩)], true, []⟩
        [.tryStart "b" 2, .closeStop, .tryStart "c" 3]).running.map Prod.fst →
      tid ∈ ([("a", (⟨"a", 1, 0⟩ : RTask))].map Prod.fst) :=
  ⟨rfl, c5_no_insert_after_stop ⟨[("a", ⟨"a", 1, 0⟩)], true, []⟩ rfl
    [.tryStart "b" 2, .closeStop, .tryStart "c" 3]⟩

/-- `Consumer.Tasks` (client.go): copy the running map's keys, sort them, and
emit the running tasks in that key order.  The input list order models Go's
arbitrary map iteration order. -/
def consumerTasks (running : List (String × RTask)) : List (String × RTask) :=
  let ids := List.insertionSort (fun a b : String => a ≤ b) (running.map Prod.fst)
  ids.filterMap (fun i => (lookupKey running i).map (fun rt => (i, rt)))

theorem lookupKey_of_mem {α : Type} (l : List (String × α)) (p : String × α)
    (hn : (l.map Prod.fst).Nodup) (hp : p ∈ l) : lookupKey l p.1 = some p.2 := by
  induction l with
  | nil => cases hp
  | cons q qs ih =>
    rcases List.mem_cons.mp hp with he | ht
    · subst he
      simp [lookupKey]
    · have hq : q.1 ≠ p.1 := by
        intro hc
        have : q.1 ∈ qs.map Prod.fst := hc ▸ List.mem_map_of_mem Prod.fst ht
        exact (List.nodup_cons.mp hn).1 this
      simp only [lookupKey, if_neg hq]
      exact ih (List.nodup_cons.mp hn).2 ht

theorem lookupKey_isSome_of_mem_keys {α : Type} (l : List (String × α)) (i : String)
    (h : i ∈ l.map Prod.fst) : (lookupKey l i).isSome := by
  induction l with
  | nil => cases h
  | cons q qs ih =>
    rcases List.mem_cons.mp h with he | ht
    · simp [lookupKey, he.symm]
    · by_cases hq : q.1 = i
      · simp [lookupKey, hq]
      · simp only [lookupKey, if_neg hq]
        exact ih ht

theorem filterMap_reconstruct {α : Type} (running : List (String × α))
    (l : List (String × α))
    (hl : ∀ p ∈ l, lookupKey running p.1 = some p.2) :
    (l.map Prod.fst).filterMap
        (fun i => (lookupKey running i).map (fun rt => (i, rt))) = l := by
  induction l with
  | nil => rfl
  | cons p ps ih =>
    simp only [List.map_cons, List.filterMap_cons]
    rw [hl p (List.mem_cons_self p ps)]
    simp only [Option.map_some']
    rw [ih (fun q hq => hl q (List.mem_cons_of_mem p hq))]

theorem filterMap_keys_of_isSome {α : Type} (running : List (String × α))
    (l : List String)
    (hl : ∀ i ∈ l, (lookupKey running i).isSome) :
    (l.filterMap (fun i => (lookupKey running i).map (fun rt => (i, rt)))).map
        Prod.fst = l := by
  induction l with
  | nil => rfl
  | cons i is ih =>
    simp only [List.filterMap_cons]
    rcases Option.isSome_iff_exists.mp (hl i (List.mem_cons_self i is)) with ⟨rt, hrt⟩
    rw [hrt]
    simp only [Option.map_some', List.map_cons]
    rw [ih (fun j hj => hl j (List.mem_cons_of_mem i hj))]

/-- C7: for every state of the running map (with its invariant of distinct
keys), `Tasks()` returns the running tasks sorted in ascending lexicographic
order of task ID, one entry per running task (a permutation of the map's
entries). -/
theorem c7_tasks_sorted (running : List (String × RTask))
    (hn : (running.map Prod.fst).Nodup) :
    List.Sorted (fun a b : String => a ≤ b)
        ((consumerTasks running).map Prod.fst) ∧
    List.Perm (consumerTasks running) running := by
  have hperm : List.Perm
      (List.insertionSort (fun a b : String => a ≤ b) (running.map Prod.fst))
      (running.map Prod.fst) :=
    List.perm_insertionSort (fun a b : String => a ≤ b) (running.map Prod.fst)
  constructor
  · have hkeys : ((consumerTasks running).map Prod.fst) =
        List.insertionSort (fun a b : String => a ≤ b) (running.map Prod.fst) := by
      unfold consumerTasks
      apply filterMap_keys_of_isSome
      intro i hi
      exact lookupKey_isSome_of_mem_keys running i (hperm.mem_iff.mp hi)
    rw [hkeys]
    exact List.sorted_insertionSort (fun a b : String => a ≤ b) (running.map Prod.fst)
  · have hre : (running.map Prod.fst).filterMap
        (fun i => (lookupKey running i).map (fun rt => (i, rt))) = running := by
      have := filterMap_reconstruct running running
        (fun p hp => lookupKey_of_mem running p hn hp)
      exact this
    have h2 := hperm.filterMap
      (fun i => (lookupKey running i).map (fun rt => (i, rt)))
    rw [hre] at h2
    exact h2

/-- C7 witness: a concrete two-entry running map with keys out of order is
returned sorted and as a permutation of the entries. -/
theorem c7_witness :
    ([("b", (⟨"b", 2, 0⟩ : RTask)), ("a", ⟨"a", 1, 0⟩)].map Prod.fst).Nodup ∧
    (List.Sorted (fun a b : String => a ≤ b)
        ((consumerTasks [("b", ⟨"b", 2, 0⟩), ("a", ⟨"a", 1, 0⟩)]).map Prod.fst) ∧
      List.Perm (consumerTasks [("b", ⟨"b", 2, 0⟩), ("a", ⟨"a", 1, 0⟩)])
        [("b", ⟨"b", 2, 0⟩), ("a", ⟨"a", 1, 0⟩)]) :=
  ⟨by decide, c7_tasks_sorted [("b", ⟨"b", 2, 0⟩), ("a", ⟨"a", 1, 0⟩)] (by decide)⟩

/-- A task as surfaced by `Watch`: ID plus opaque string property map. -/
structure TaskV where
  id : String
  props : List (String × String)
deriving DecidableEq, Repr

/-- Command names recognized by `Consumer.handleCommand` (the `cmdFreeze`,
`cmdUnfreeze`, `cmdBalance` and `cmdStopTask` constants), plus unknown
commands. -/
inductive CmdName where
  | freezeCmd
  | unfreezeCmd
  | runBalanceCmd
  | stopTaskCmd
  | unknown (s : String)
deriving DecidableEq, Repr

/-- A command parameter value: the `stop_task` dispatch type-asserts the
`task` parameter to `string`, any other JSON value fails the assertion. -/
inductive PVal where
  | str (s : String)
  | other
deriving DecidableEq, Repr

/-- A command: name plus parameter map. -/
structure Cmd where
  name : CmdName
  params : List (String × PVal)
deriving DecidableEq, Repr

/-- Externally visible actions of one main-loop iteration. -/
inductive Effect where
  | claimAttempt (tid : String)
  | accepted (tid : String)
  | balanceRun
  | stopTaskReq (tid : String)
  | ignoreAdd (tid : String)
  | exitLoop
deriving DecidableEq, Repr

/-- Main-loop state relevant to C6: the freeze flag. -/
structure LoopState where
  frozen : Bool
deriving DecidableEq, Repr

/-- The events the main loop's select statements can wake on: the closed
`stop` channel, a balance-timer tick, a task from the watcher, a command. -/
inductive LoopEvent where
  | stopSig
  | balanceTick
  | taskEv (t : TaskV)
  | cmdEv (c : Cmd)
deriving DecidableEq, Repr

/-- `Consumer.handleCommand` (client.go): freeze/unfreeze toggle the flag
if not already in that state; `run_balance` runs a balance synchronously;
`stop_task` stops the task named by the string `task` parameter and drops the
command when the parameter is missing or ill-typed; unknown commands are
dropped. -/
def handleCommand (st : LoopState) (c : Cmd) : LoopState × List Effect :=
  match c.name with
  | .freezeCmd => if st.frozen then (st, []) else ({ st with frozen := true }, [])
  | .unfreezeCmd => if st.frozen then ({ st with frozen := false }, []) else (st, [])
  | .runBalanceCmd => (st, [.balanceRun])
  | .stopTaskCmd =>
      match lookupKey c.params "task" with
      | some (.str t) => (st, [.stopTaskReq t])
      | some .other => (st, [])
      | none => (st, [])
  | .unknown _ => (st, [])

/-- One iteration of `Consumer.Run`'s main loop.  Both selects cover `stop`
and the command channel; only the unfrozen select also covers the balance
tick and the task channel, so a task or balance-tick event arriving while
frozen is not received: `none` means the event is not selected and stays
pending.  On a task event the loop consults the ignore set, then
`balancer.CanClaim`, then `coord.Claim` (all supplied as oracles), and accepts
the task on success. -/
def mainStep (ignoredO : String → Bool) (canClaimO : TaskV → Nat × Bool)
    (claimO : String → Bool) (st : LoopState) (ev : LoopEvent) :
    Option (LoopState × List Effect) :=
  match ev with
  | .stopSig => some (st, [.exitLoop])
  | .cmdEv c => some (handleCommand st c)
  | .balanceTick => if st.frozen then none else some (st, [.balanceRun])
  | .taskEv t =>
      if st.frozen then none
      else if ignoredO t.id then some (st, [])
      else if (canClaimO t).2 = false then some (st, [.ignoreAdd t.id])
      else if claimO t.id = false then some (st, [.claimAttempt t.id])
      else some (st, [.claimAttempt t.id, .accepted t.id])

theorem handleCommand_effects (st : LoopState) (c : Cmd) :
    (∀ tid, Effect.claimAttempt tid ∉ (handleCommand st c).2) ∧
    (Effect.balanceRun ∈ (handleCommand st c).2 → c.name = CmdName.runBalanceCmd) := by
  cases hc : c.name with
  | freezeCmd => by_cases hf : st.frozen <;> simp [handleCommand, hc, hf]
  | unfreezeCmd => by_cases hf : st.frozen <;> simp [handleCommand, hc, hf]
  | runBalanceCmd => simp [handleCommand, hc]
  | stopTaskCmd =>
    rcases hlk : lookupKey c.params "task" with _ | v
    · simp [handleCommand, hc, hlk]
    · cases v with
      | str s => simp [handleCommand, hc, hlk]
      | other => simp [handleCommand, hc, hlk]
  | unknown s => simp [handleCommand, hc]

/-- C6 counterexample: a `run_balance` command received while frozen runs a
balance — `handleCommand`'s balance case has no freeze check — so "while
frozen ... never runs a balance" fails on the command path. -/
theorem c6_counterexample :
    (⟨true⟩ : LoopState).frozen = true ∧
    mainStep (fun _ => false) (fun _ => (0, true)) (fun _ => true) ⟨true⟩
        (.cmdEv ⟨.runBalanceCmd, []⟩) = some (⟨true⟩, [.balanceRun]) := by
  exact ⟨rfl, rfl⟩

/-- C6 amended: while the consumer is frozen the main loop consults only the
stop signal and the command channel — task events and balance-timer ticks
are not selected and stay pending — and it never claims a new task; a
balance is run while frozen only when an explicit `run_balance` command is
received. -/
theorem c6_frozen_no_claim_no_tick (ignoredO : String → Bool)
    (canClaimO : TaskV → Nat × Bool) (claimO : String → Bool)
    (st : LoopState) (h : st.frozen = true) :
    (∀ t, mainStep ignoredO canClaimO claimO st (.taskEv t) = none) ∧
    mainStep ignoredO canClaimO claimO st .balanceTick = none ∧
    (∀ ev st' effs, mainStep ignoredO canClaimO claimO st ev = some (st', effs) →
      (∀ tid, Effect.claimAttempt tid ∉ effs) ∧
      (Effect.balanceRun ∈ effs →
        ∃ c, ev = LoopEvent.cmdEv c ∧ c.name = CmdName.runBalanceCmd)) := by
  refine ⟨fun t => by simp [mainStep, h], by simp [mainStep, h], ?_⟩
  intro ev st' effs hev
  cases ev with
  | stopSig =>
    simp only [mainStep, Option.some.injEq, Prod.mk.injEq] at hev
    obtain ⟨h1, h2⟩ := hev
    subst h2
    exact ⟨fun tid => by simp, by simp⟩
  | balanceTick => simp [mainStep, h] at hev
  | taskEv t => simp [mainStep, h] at hev
  | cmdEv c =>
    simp only [mainStep, Option.some.injEq] at hev
    have heffs : effs = (handleCommand st c).2 := by rw [hev]
    subst heffs
    refine ⟨(handleCommand_effects st c).1, fun hmem => ⟨c, rfl, ?_⟩⟩
    exact (handleCommand_effects st c).2 hmem

/-- C6 witness: in a concrete frozen state a task event and a balance tick
are not selected, and a concrete `freeze` command claims nothing and runs no
balance. -/
theorem c6_witness :
    (⟨true⟩ : LoopState).frozen = true ∧
    (mainStep (fun _ => false) (fun _ => (0, true)) (fun _ => true) ⟨true⟩
        (.taskEv ⟨"t1", []⟩) = none ∧
      mainStep (fun _ => false) (fun _ => (0, true)) (fun _ => true) ⟨true⟩
        .balanceTick = none) := by
  have h := c6_frozen_no_claim_no_tick (fun _ => false) (fun _ => (0, true))
    (fun _ => true) ⟨true⟩ rfl
  exact ⟨rfl, h.1 ⟨"t1", []⟩, h.2.1⟩

/-- The reserved task property the type mux routes on (`TypeKey`). -/
def typeKey : String := "_type"

/-- The far-future instant `time.Unix(math.MaxInt64, 0)` the rejecting
balancer ignores tasks until. -/
def foreverTime : Nat := 9223372036854775807

/-- One mux route: the per-type balancer's `CanClaim`, returning an
ignore-until time and the claim decision. -/
structure MuxRoute where
  canClaim : TaskV → Nat × Bool

/-- The `rejectRoute` used for unknown types: its balancer always ignores
tasks forever (`rejecter.CanClaim`). -/
def rejectRoute : MuxRoute := ⟨fun _ => (foreverTime, false)⟩

/-- The task-type multiplexer: a route table keyed by the `_type` value, the
default route stored under the empty-string key (`defkey`). -/
structure Mux where
  routes : List (String × MuxRoute)

/-- `mux.New`: the route table holds only the default route. -/
def muxNew (defRoute : MuxRoute) : Mux := ⟨[("", defRoute)]⟩

/-- `mux.Add`: register a route for a type (first-match lookup makes the new
entry shadow any previous one, modelling map assignment). -/
def muxAdd (m : Mux) (typ : String) (r : MuxRoute) : Mux := ⟨(typ, r) :: m.routes⟩

/-- `mux.get`: route-table lookup falling back to the rejecting route for
unknown types. -/
def muxGet (m : Mux) (typ : String) : MuxRoute :=
  (lookupKey m.routes typ).getD rejectRoute

/-- `mux.CanClaim`: route on `task.Props()[TypeKey]` (a missing key yields
the zero value `""`, so tasks without a `_type` use the default route) and
delegate to that route's balancer. -/
def muxCanClaim (m : Mux) (t : TaskV) : Nat × Bool :=
  (muxGet m ((lookupKey t.props typeKey).getD "")).canClaim t

/-- C8: a task whose property map has no `_type` key is routed to the default
route's balancer, and a task whose `_type` value has no registered route is
rejected with claim false and a far-future ignore-until time. -/
theorem c8_mux_default_and_reject (m : Mux) (t : TaskV) (defR : MuxRoute)
    (hdef : lookupKey m.routes "" = some defR) :
    (lookupKey t.props typeKey = none → muxCanClaim m t = defR.canClaim t) ∧
    (∀ v, lookupKey t.props typeKey = some v → lookupKey m.routes v = none →
      muxCanClaim m t = (foreverTime, false)) := by
  constructor
  · intro hnone
    unfold muxCanClaim muxGet
    rw [hnone]
    simp [hdef]
  · intro v hv hunk
    unfold muxCanClaim muxGet
    rw [hv]
    simp [hunk, rejectRoute]

/-- C8 witness: a mux with a default route and a route for type `a`:
a task with no `_type` gets the default verdict, and a task of unknown type
`z` is rejected forever. -/
theorem c8_witness :
    lookupKey (muxAdd (muxNew ⟨fun _ => (7, true)⟩) "a" ⟨fun _ => (0, true)⟩).routes
        "" = some ⟨fun _ => (7, true)⟩ ∧
    muxCanClaim (muxAdd (muxNew ⟨fun _ => (7, true)⟩) "a" ⟨fun _ => (0, true)⟩)
        ⟨"t1", [("_type", "z")]⟩ = (foreverTime, false) := by
  refine ⟨rfl, ?_⟩
  exact (c8_mux_default_and_reject
      (muxAdd (muxNew ⟨fun _ => (7, true)⟩) "a" ⟨fun _ => (0, true)⟩)
      ⟨"t1", [("_type", "z")]⟩ ⟨fun _ => (7, true)⟩ rfl).2 "z" rfl rfl

/-- `ResourceBalancer.Balance`'s selection loop body: keep the current
candidate unless this task is not already stopping and started strictly
earlier (`task.Started().After(t.Started())`). -/
def pickStep (acc : Option RTask) (t : RTask) : Option RTask :=
  match acc with
  | none => if t.stopped = 0 then some t else none
  | some a => if t.stopped = 0 ∧ t.started < a.started then some t else some a

/-- `ResourceBalancer.Balance` (resource balancer source): when the usage
percentage (the integer result of `used/total*100`, supplied here already
computed) is below the release limit release nothing; otherwise release the
single oldest task that is not already stopping, or nothing when every
running task is stopping or none are running. -/
def resourceBalance (threshold releaseLimit : Nat) (tasks : List RTask) :
    List String :=
  if threshold < releaseLimit then []
  else
    match tasks.foldl pickStep none with
    | none => []
    | some t => [t.id]

theorem pick_isSome_mono (ts : List RTask) (a : RTask) :
    (ts.foldl pickStep (some a)).isSome := by
  induction ts generalizing a with
  | nil => rfl
  | cons t ts ih =>
    simp only [List.foldl_cons, pickStep]
    by_cases hc : t.stopped = 0 ∧ t.started < a.started
    · rw [if_pos hc]; exact ih t
    · rw [if_neg hc]; exact ih a

theorem pick_none_iff (ts : List RTask) :
    ts.foldl pickStep none = none ↔ ∀ t ∈ ts, t.stopped ≠ 0 := by
  induction ts with
  | nil => simp
  | cons t ts ih =>
    simp only [List.foldl_cons, pickStep]
    by_cases hs : t.stopped = 0
    · rw [if_pos hs]
      constructor
      · intro h
        have := pick_isSome_mono ts t
        rw [h] at this
        cases this
      · intro h
        exact absurd hs (h t (List.mem_cons_self t ts))
    · rw [if_neg hs]
      rw [ih]
      constructor
      · intro h u hu
        rcases List.mem_cons.mp hu with he | ht
        · subst he; exact hs
        · exact h u ht
      · intro h u hu
        exact h u (List.mem_cons_of_mem t hu)

theorem pick_mem_nonstop (ts : List RTask) (acc : Option RTask) (u : RTask)
    (h : ts.foldl pickStep acc = some u) :
    (u ∈ ts ∧ u.stopped = 0) ∨ acc = some u := by
  induction ts generalizing acc with
  | nil => exact Or.inr h
  | cons t ts ih =>
    simp only [List.foldl_cons] at h
    rcases ih (pickStep acc t) h with ⟨hm, hs⟩ | hacc
    · exact Or.inl ⟨List.mem_cons_of_mem t hm, hs⟩
    · cases acc with
      | none =>
        simp only [pickStep] at hacc
        by_cases hs : t.stopped = 0
        · rw [if_pos hs, Option.some.injEq] at hacc
          subst hacc
          exact Or.inl ⟨List.mem_cons_self _ _, hs⟩
        · rw [if_neg hs] at hacc
          cases hacc
      | some a =>
        simp only [pickStep] at hacc
        by_cases hc : t.stopped = 0 ∧ t.started < a.started
        · rw [if_pos hc, Option.some.injEq] at hacc
          subst hacc
          exact Or.inl ⟨List.mem_cons_self _ _, hc.1⟩
        · rw [if_neg hc] at hacc
          exact Or.inr hacc

theorem pick_minimal (ts : List RTask) (acc : Option RTask) (u : RTask)
    (h : ts.foldl pickStep acc = some u) :
    (∀ v ∈ ts, v.stopped = 0 → u.started ≤ v.started) ∧
    (∀ a, acc = some a → u.started ≤ a.started) := by
  induction ts generalizing acc with
  | nil =>
    refine ⟨fun v hv _ => absurd hv (List.not_mem_nil v), fun a ha => ?_⟩
    rw [ha] at h
    cases h
    exact le_refl _
  | cons t ts ih =>
    simp only [List.foldl_cons] at h
    obtain ⟨ih1, ih2⟩ := ih (pickStep acc t) h
    have hstep : ∀ a, acc = some a → u.started ≤ a.started := by
      intro a ha
      subst ha
      simp only [pickStep] at ih2
      by_cases hc : t.stopped = 0 ∧ t.started < a.started
      · rw [if_pos hc] at ih2
        exact le_trans (ih2 t rfl) (le_of_lt hc.2)
      · rw [if_neg hc] at ih2
        exact ih2 a rfl
    refine ⟨?_, hstep⟩
    intro v hv hvs
    rcases List.mem_cons.mp hv with he | ht
    · subst he
      cases acc with
      | none =>
        simp only [pickStep, hvs, if_pos] at ih2
        exact ih2 v rfl
      | some a =>
        simp only [pickStep] at ih2
        by_cases hc : v.stopped = 0 ∧ v.started < a.started
        · rw [if_pos hc] at ih2
          exact ih2 v rfl
        · rw [if_neg hc] at ih2
          have hna : ¬ v.started < a.started := fun hlt => hc ⟨hvs, hlt⟩
          exact le_trans (ih2 a rfl) (le_of_not_lt hna)
    · exact ih1 v ht hvs

/-- C9: `ResourceBalancer.Balance` releases nothing when usage is below the
release limit or when no running task is non-stopping; otherwise it returns
exactly one task ID, belonging to a running non-stopping task whose `Started`
time is earliest among non-stopping tasks. -/
theorem c9_resource_balance (threshold releaseLimit : Nat) (ts : List RTask) :
    (threshold < releaseLimit → resourceBalance threshold releaseLimit ts = []) ∧
    ((∀ t ∈ ts, t.stopped ≠ 0) → resourceBalance threshold releaseLimit ts = []) ∧
    (releaseLimit ≤ threshold → ∀ t ∈ ts, t.stopped = 0 →
      ∃ u, resourceBalance threshold releaseLimit ts = [u.id] ∧ u ∈ ts ∧
        u.stopped = 0 ∧ ∀ v ∈ ts, v.stopped = 0 → u.started ≤ v.started) := by
  refine ⟨fun h => by simp [resourceBalance, h], ?_, ?_⟩
  · intro h
    unfold resourceBalance
    rw [(pick_none_iff ts).mpr h]
    by_cases hlt : threshold < releaseLimit
    · rw [if_pos hlt]
    · rw [if_neg hlt]
  · intro hle t ht hts
    have hnn : ts.foldl pickStep none ≠ none := by
      rw [Ne, pick_none_iff]
      intro h
      exact h t ht hts
    rcases Option.ne_none_iff_exists'.mp hnn with ⟨u, hu⟩
    refine ⟨u, ?_, ?_, ?_, (pick_minimal ts none u hu).1⟩
    · unfold resourceBalance
      rw [if_neg (not_lt_of_le hle), hu]
    · rcases pick_mem_nonstop ts none u hu with ⟨hm, _⟩ | hc
      · exact hm
      · cases hc
    · rcases pick_mem_nonstop ts none u hu with ⟨_, hs⟩ | hc
      · exact hs
      · cases hc

/-- C9 witness: with usage 90 ≥ releaseLimit 80 and tasks `a` (started 5),
`b` (started 2, stopping) and `c` (started 3), the oldest non-stopping task
`c` is released. -/
theorem c9_witness :
    (80 : Nat) ≤ 90 ∧
    ∃ u : RTask, resourceBalance 90 80
        [⟨"a", 5, 0⟩, ⟨"b", 2, 9⟩, ⟨"c", 3, 0⟩] = [u.id] ∧
      u ∈ [(⟨"a", 5, 0⟩ : RTask), ⟨"b", 2, 9⟩, ⟨"c", 3, 0⟩] ∧ u.stopped = 0 ∧
      ∀ v ∈ [(⟨"a", 5, 0⟩ : RTask), ⟨"b", 2, 9⟩, ⟨"c", 3, 0⟩],
        v.stopped = 0 → u.started ≤ v.started :=
  ⟨by decide,
    (c9_resource_balance 90 80 [⟨"a", 5, 0⟩, ⟨"b", 2, 9⟩, ⟨"c", 3, 0⟩]).2.2
      (by decide) ⟨"a", 5, 0⟩ (by decide) (by decide)⟩

/-- FairBalancer state (balancer.go): node id, release threshold (the
`float64` modelled as an exact rational) and the claim cooldown `delay`
(0 = the zero time). -/
structure FBState where
  nodeid : String
  releaseThreshold : ℚ
  delay : Nat
deriving DecidableEq, Repr

/-- `FairBalancer.desiredCount`: sum the cluster counts, take the Go integer
average `total / len(current)` (0 for an empty map), and apply
`math.Ceil(float64(avg) * releaseThreshold)`, computed here as the exact
integer ceiling `-((-(avg*num)) / den)` of `avg * threshold` so the
definition evaluates; `desiredCount_eq_ceil` shows it equals
`⌈avg * threshold⌉`. -/
def ceilDiv (n d : Int) : Int := -(-n / d)

def desiredCount (threshold : ℚ) (current : List (String × Nat)) : Int :=
  let total : Nat := (current.map Prod.snd).sum
  let avg : Nat := if 0 < current.length then total / current.length else 0
  ceilDiv ((avg : Int) * threshold.num) (threshold.den : Int)

theorem desiredCount_eq_ceil (threshold : ℚ) (current : List (String × Nat)) :
    desiredCount threshold current =
      Int.ceil (((if 0 < current.length then
          (current.map Prod.snd).sum / current.length else 0 : Nat) : ℚ) *
        threshold) := by
  unfold desiredCount
  set avg : Nat :=
    if 0 < current.length then (current.map Prod.snd).sum / current.length
    else 0 with havg
  have h1 : (avg : ℚ) * threshold =
      -((((-((avg : Int) * threshold.num)) : Int) : ℚ) / ((threshold.den : ℕ) : ℚ)) := by
    conv_lhs => rw [← Rat.num_div_den threshold]
    push_cast
    ring
  rw [h1, Int.ceil_neg, Rat.floor_intCast_div_natCast]
  rfl

/-- Modelled from the spec: `desired = ceil(average cluster task count ×
releaseThreshold)` with the exact (rational) average `total / numNodes`
rather than the source's integer-division average, for comparison; computed
as the integer ceiling of `(total*num) / (numNodes*den)`
(`desiredCountSpec_eq_ceil` below). -/
def desiredCountSpec (threshold : ℚ) (current : List (String × Nat)) : Int :=
  let total : Nat := (current.map Prod.snd).sum
  if 0 < current.length then
    ceilDiv ((total : Int) * threshold.num)
      ((current.length : Int) * (threshold.den : Int))
  else 0

theorem desiredCountSpec_eq_ceil (threshold : ℚ) (current : List (String × Nat))
    (h : 0 < current.length) :
    desiredCountSpec threshold current =
      Int.ceil ((((current.map Prod.snd).sum : ℚ) / (current.length : ℚ)) *
        threshold) := by
  unfold desiredCountSpec
  rw [if_pos h]
  set S : Nat := (current.map Prod.snd).sum with hS
  set L : Nat := current.length with hL
  have h1 : ((S : ℚ) / (L : ℚ)) * threshold =
      -((((-((S : Int) * threshold.num)) : Int) : ℚ) /
        ((L * threshold.den : ℕ) : ℚ)) := by
    conv_lhs => rw [← Rat.num_div_den threshold]
    push_cast
    ring
  rw [h1, Int.ceil_neg, Rat.floor_intCast_div_natCast]
  unfold ceilDiv
  push_cast
  ring_nf

/-- The random selection loop of `FairBalancer.Balance`: repeatedly draw an
index from the random stream (`rand.Intn(len)`, modelled as an arbitrary
stream of naturals taken modulo the list length) and collect
previously-unseen task IDs until `need` distinct IDs are gathered.  `fuel`
bounds the number of iterations, so failure to terminate within any bound is
observable as `none` for every fuel. -/
def selectLoop (ids : List String) (need : Nat) (stream : Nat → Nat) :
    Nat → Nat → List String → Option (List String)
  | fuel, k, acc =>
    if need ≤ acc.length then some acc
    else
      match fuel with
      | 0 => none
      | f + 1 =>
          selectLoop ids need stream f (k + 1)
            (if ids.getD (stream k % ids.length) "" ∈ acc then acc
             else acc ++ [ids.getD (stream k % ids.length) ""])

/-- `FairBalancer.Balance`: reset the cooldown; never rebalance with fewer
than 2 local tasks or when `NodeTaskCount` errors (`current = none`); release
`current[nodeid] - desiredCount` randomly chosen distinct local task IDs when
that is at least 1, setting the cooldown delay to `now + N` seconds (N =
number released).  The outer `none` means the selection loop did not finish
within `fuel` iterations. -/
def fairBalance (bal : FBState) (now : Nat) (nodetasks : List String)
    (current : Option (List (String × Nat))) (stream : Nat → Nat)
    (fuel : Nat) : Option (List String × FBState) :=
  if nodetasks.length < 2 then some ([], { bal with delay := 0 })
  else
    match current with
    | none => some ([], { bal with delay := 0 })
    | some cur =>
        let shouldrelease : Int :=
          ((lookupKeyD cur bal.nodeid 0 : ℕ) : Int) -
            desiredCount bal.releaseThreshold cur
        if shouldrelease < 1 then some ([], { bal with delay := 0 })
        else
          match selectLoop nodetasks shouldrelease.toNat stream fuel 0 [] with
          | none => none
          | some rel => some (rel, { bal with delay := now + rel.length })

theorem getD_mem_of_lt :
    ∀ (l : List String) (i : Nat), i < l.length → l.getD i "" ∈ l
  | [], i, h => absurd h (Nat.not_lt_zero i)
  | a :: l, 0, _ => List.mem_cons_self a l
  | a :: l, i + 1, h =>
      List.mem_cons_of_mem a (getD_mem_of_lt l i (Nat.lt_of_succ_lt_succ h))

theorem getD_eq_of_lt :
    ∀ (l : List String) (i : Nat) (h : i < l.length), l.getD i "" = l.get ⟨i, h⟩
  | _ :: _, 0, _ => rfl
  | _ :: l, i + 1, h => getD_eq_of_lt l i (Nat.lt_of_succ_lt_succ h)

theorem nodup_subset_dedup_length (acc ids : List String) (hnd : acc.Nodup)
    (hsub : ∀ x ∈ acc, x ∈ ids) : acc.length ≤ ids.dedup.length := by
  have h1 : acc.toFinset.card = acc.length := List.toFinset_card_of_nodup hnd
  have h2 : acc.toFinset ⊆ ids.toFinset := by
    intro x hx
    rw [List.mem_toFinset] at hx ⊢
    exact hsub x hx
  have h3 := Finset.card_le_card h2
  rw [h1, List.card_toFinset] at h3
  exact h3

theorem selectLoop_length (ids : List String) (need : Nat) (stream : Nat → Nat)
    (fuel : Nat) :
    ∀ k acc r, acc.length ≤ need →
      selectLoop ids need stream fuel k acc = some r → r.length = need := by
  induction fuel with
  | zero =>
    intro k acc r hle h
    rw [selectLoop] at h
    by_cases hc : need ≤ acc.length
    · rw [if_pos hc] at h
      injection h with h
      subst h
      exact Nat.le_antisymm hle hc
    · rw [if_neg hc] at h
      cases h
  | succ f ih =>
    intro k acc r hle h
    rw [selectLoop] at h
    by_cases hc : need ≤ acc.length
    · rw [if_pos hc] at h
      injection h with h
      subst h
      exact Nat.le_antisymm hle hc
    · rw [if_neg hc] at h
      by_cases hm : ids.getD (stream k % ids.length) "" ∈ acc
      · rw [if_pos hm] at h
        exact ih (k + 1) acc r hle h
      · rw [if_neg hm] at h
        refine ih (k + 1) _ r ?_ h
        rw [List.length_append, List.length_singleton]
        exact Nat.succ_le_of_lt (Nat.lt_of_not_le hc)

theorem selectLoop_sound (ids : List String) (need : Nat) (stream : Nat → Nat)
    (hlen : 0 < ids.length) (fuel : Nat) :
    ∀ k acc r, acc.Nodup → (∀ x ∈ acc, x ∈ ids) →
      selectLoop ids need stream fuel k acc = some r →
      r.Nodup ∧ ∀ x ∈ r, x ∈ ids := by
  induction fuel with
  | zero =>
    intro k acc r hnd hsub h
    rw [selectLoop] at h
    by_cases hc : need ≤ acc.length
    · rw [if_pos hc] at h
      injection h with h
      subst h
      exact ⟨hnd, hsub⟩
    · rw [if_neg hc] at h
      cases h
  | succ f ih =>
    intro k acc r hnd hsub h
    rw [selectLoop] at h
    by_cases hc : need ≤ acc.length
    · rw [if_pos hc] at h
      injection h with h
      subst h
      exact ⟨hnd, hsub⟩
    · rw [if_neg hc] at h
      by_cases hm : ids.getD (stream k % ids.length) "" ∈ acc
      · rw [if_pos hm] at h
        exact ih (k + 1) acc r hnd hsub h
      · rw [if_neg hm] at h
        refine ih (k + 1) _ r ?_ ?_ h
        · rw [List.nodup_append]
          exact ⟨hnd, List.nodup_singleton _,
            fun x hx hy => hm ((List.mem_singleton.mp hy) ▸ hx)⟩
        · intro x hx
          rcases List.mem_append.mp hx with hx | hx
          · exact hsub x hx
          · rw [List.mem_singleton.mp hx]
            exact getD_mem_of_lt ids _ (Nat.mod_lt _ hlen)

theorem selectLoop_stuck (ids : List String) (need : Nat) (stream : Nat → Nat)
    (hlen : 0 < ids.length) (hneed : ids.dedup.length < need) (fuel : Nat) :
    ∀ k acc, acc.Nodup → (∀ x ∈ acc, x ∈ ids) →
      selectLoop ids need stream fuel k acc = none := by
  induction fuel with
  | zero =>
    intro k acc hnd hsub
    rw [selectLoop]
    rw [if_neg (Nat.not_le_of_lt
      (Nat.lt_of_le_of_lt (nodup_subset_dedup_length acc ids hnd hsub) hneed))]
  | succ f ih =>
    intro k acc hnd hsub
    rw [selectLoop]
    rw [if_neg (Nat.not_le_of_lt
      (Nat.lt_of_le_of_lt (nodup_subset_dedup_length acc ids hnd hsub) hneed))]
    by_cases hm : ids.getD (stream k % ids.length) "" ∈ acc
    · rw [if_pos hm]
      exact ih (k + 1) acc hnd hsub
    · rw [if_neg hm]
      refine ih (k + 1) _ ?_ ?_
      · rw [List.nodup_append]
        exact ⟨hnd, List.nodup_singleton _,
          fun x hx hy => hm ((List.mem_singleton.mp hy) ▸ hx)⟩
      · intro x hx
        rcases List.mem_append.mp hx with hx | hx
        · exact hsub x hx
        · rw [List.mem_singleton.mp hx]
          exact getD_mem_of_lt ids _ (Nat.mod_lt _ hlen)

/-- The pure accumulation the selection loop performs when it has not yet
gathered enough IDs: fold the next `m` stream positions into the accumulator,
adding each drawn ID not already present. -/
def accumFrom (ids : List String) (stream : Nat → Nat) :
    Nat → Nat → List String → List String
  | _, 0, acc => acc
  | k, m + 1, acc =>
      accumFrom ids stream (k + 1) m
        (if ids.getD (stream k % ids.length) "" ∈ acc then acc
         else acc ++ [ids.getD (stream k % ids.length) ""])

theorem selectLoop_of_accum (ids : List String) (need : Nat) (stream : Nat → Nat)
    (m : Nat) :
    ∀ k acc, need ≤ (accumFrom ids stream k m acc).length →
      (selectLoop ids need stream m k acc).isSome := by
  induction m with
  | zero =>
    intro k acc h
    rw [accumFrom] at h
    rw [selectLoop, if_pos h]
    rfl
  | succ f ih =>
    intro k acc h
    rw [selectLoop]
    by_cases hc : need ≤ acc.length
    · rw [if_pos hc]
      rfl
    · rw [if_neg hc]
      rw [accumFrom] at h
      exact ih (k + 1) _ h

theorem accumFrom_mono (ids : List String) (stream : Nat → Nat) (m : Nat) :
    ∀ k acc x, x ∈ acc → x ∈ accumFrom ids stream k m acc := by
  induction m with
  | zero =>
    intro k acc x hx
    rw [accumFrom]
    exact hx
  | succ f ih =>
    intro k acc x hx
    rw [accumFrom]
    apply ih
    by_cases hm : ids.getD (stream k % ids.length) "" ∈ acc
    · rw [if_pos hm]
      exact hx
    · rw [if_neg hm]
      exact List.mem_append_left _ hx

theorem accumFrom_hits (ids : List String) (stream : Nat → Nat) (m : Nat) :
    ∀ k acc j, j < m →
      ids.getD (stream (k + j) % ids.length) "" ∈ accumFrom ids stream k m acc := by
  induction m with
  | zero =>
    intro k acc j hj
    exact absurd hj (Nat.not_lt_zero j)
  | succ f ih =>
    intro k acc j hj
    rw [accumFrom]
    cases j with
    | zero =>
      rw [Nat.add_zero]
      apply accumFrom_mono
      by_cases hm : ids.getD (stream k % ids.length) "" ∈ acc
      · rw [if_pos hm]
        exact hm
      · rw [if_neg hm]
        exact List.mem_append_right _ (List.mem_singleton.mpr rfl)
    | succ j =>
      have harith : k + (j + 1) = (k + 1) + j := by omega
      rw [harith]
      exact ih (k + 1) _ j (Nat.lt_of_succ_lt_succ hj)

theorem coverage_bound (n : Nat) (stream : Nat → Nat)
    (hcov : ∀ i, i < n → ∃ k, stream k % n = i) :
    ∃ m, ∀ i, i < n → ∃ j, j < m ∧ stream j % n = i := by
  have hcov2 : ∀ i : Nat, ∃ k, stream k % n = i ∨ n ≤ i := by
    intro i
    by_cases hi : i < n
    · obtain ⟨k, hk⟩ := hcov i hi
      exact ⟨k, Or.inl hk⟩
    · exact ⟨0, Or.inr (Nat.le_of_not_lt hi)⟩
  set F : Nat → Nat := fun i => Nat.find (hcov2 i) with hF
  refine ⟨(Finset.range n).sup F + 1, ?_⟩
  intro i hi
  refine ⟨F i, ?_, ?_⟩
  · have hle : F i ≤ (Finset.range n).sup F :=
      Finset.le_sup (Finset.mem_range.mpr hi)
    omega
  · rcases Nat.find_spec (hcov2 i) with h | h
    · exact h
    · exact absurd hi (Nat.not_lt_of_le h)

theorem dedup_sub_accum (ids : List String) (stream : Nat → Nat) (m : Nat)
    (hhit : ∀ i, i < ids.length → ∃ j, j < m ∧ stream j % ids.length = i) :
    ∀ x ∈ ids.dedup, x ∈ accumFrom ids stream 0 m [] := by
  intro x hx
  have hxid : x ∈ ids := List.mem_dedup.mp hx
  obtain ⟨⟨i, hi⟩, hgi⟩ := List.mem_iff_get.mp hxid
  obtain ⟨j, hjm, hj⟩ := hhit i hi
  have hmem := accumFrom_hits ids stream m 0 [] j hjm
  rw [Nat.zero_add, hj] at hmem
  rw [getD_eq_of_lt ids i hi, hgi] at hmem
  exact hmem

theorem accum_length_ge (ids : List String) (stream : Nat → Nat) (m : Nat)
    (hhit : ∀ i, i < ids.length → ∃ j, j < m ∧ stream j % ids.length = i) :
    ids.dedup.length ≤ (accumFrom ids stream 0 m []).length := by
  have h1 : ids.dedup.length ≤ (accumFrom ids stream 0 m []).dedup.length :=
    nodup_subset_dedup_length ids.dedup (accumFrom ids stream 0 m [])
      (List.nodup_dedup ids)
      (fun x hx => dedup_sub_accum ids stream m hhit x hx)
  exact le_trans h1 (List.Sublist.length_le (List.dedup_sublist _))

/-- C4 counterexample: with cluster counts `n1 ↦ 7, n2 ↦ 0` and 7 local
tasks, the source's integer average is `7 / 2 = 3` and it releases
`7 - ⌈3 × 1.2⌉ = 3` tasks, while the claim's `desired = ceil(average ×
threshold)` with the exact average `3.5` gives `⌈4.2⌉ = 5`, i.e. only
`7 - 5 = 2` releases — so the released count differs from `held − desired`
as the claim states it. -/
theorem c4_counterexample :
    fairBalance ⟨"n1", mkRat 6 5, 0⟩ 100 ["a", "b", "c", "d", "e", "f", "g"]
        (some [("n1", 7), ("n2", 0)]) (fun k => k) 10 =
      some (["a", "b", "c"], ⟨"n1", mkRat 6 5, 103⟩) ∧
    ¬ ((["a", "b", "c"] : List String).length =
        (((lookupKeyD [("n1", 7), ("n2", 0)] "n1" 0 : ℕ) : Int) -
          desiredCountSpec (mkRat 6 5) [("n1", 7), ("n2", 0)]).toNat) := by
  constructor
  · decide
  · decide

/-- C4 amended: `FairBalancer.Balance` releases nothing when this node runs
fewer than 2 tasks, when the cluster state errors, or when the cluster-state
count for this node exceeds the desired count (computed from the
integer-division average `total / numNodes`, not the exact average) by less
than 1; otherwise it releases exactly `held − desired` distinct task IDs
drawn from the locally running set and sets the claim-cooldown delay to
`now + N` seconds where `N` is the number of IDs released. -/
theorem c4_fair_balance (bal : FBState) (now : Nat) (ids : List String)
    (cur : Option (List (String × Nat))) (stream : Nat → Nat) (fuel : Nat)
    (rel : List String) (bal2 : FBState)
    (h : fairBalance bal now ids cur stream fuel = some (rel, bal2)) :
    (ids.length < 2 → rel = [] ∧ bal2.delay = 0) ∧
    (cur = none → rel = [] ∧ bal2.delay = 0) ∧
    (∀ m, cur = some m →
      (((lookupKeyD m bal.nodeid 0 : ℕ) : Int) -
          desiredCount bal.releaseThreshold m < 1 →
        rel = [] ∧ bal2.delay = 0) ∧
      (2 ≤ ids.length →
        1 ≤ ((lookupKeyD m bal.nodeid 0 : ℕ) : Int) -
            desiredCount bal.releaseThreshold m →
        rel.length = (((lookupKeyD m bal.nodeid 0 : ℕ) : Int) -
            desiredCount bal.releaseThreshold m).toNat ∧
        rel.Nodup ∧ (∀ t ∈ rel, t ∈ ids) ∧ bal2.delay = now + rel.length)) := by
  by_cases hlen : ids.length < 2
  · simp only [fairBalance.eq_def, if_pos hlen] at h
    rw [Option.some.injEq, Prod.mk.injEq] at h
    obtain ⟨hrel, hbal⟩ := h
    subst hrel
    subst hbal
    refine ⟨fun _ => ⟨rfl, rfl⟩, fun _ => ⟨rfl, rfl⟩, ?_⟩
    intro m hm
    exact ⟨fun _ => ⟨rfl, rfl⟩, fun h2 _ => absurd hlen (Nat.not_lt_of_le h2)⟩
  · cases cur with
    | none =>
      simp only [fairBalance.eq_def, if_neg hlen] at h
      rw [Option.some.injEq, Prod.mk.injEq] at h
      obtain ⟨hrel, hbal⟩ := h
      subst hrel
      subst hbal
      refine ⟨fun hc => absurd hc hlen, fun _ => ⟨rfl, rfl⟩, ?_⟩
      intro m hm
      cases hm
    | some m =>
      simp only [fairBalance.eq_def, if_neg hlen] at h
      by_cases hsr : ((lookupKeyD m bal.nodeid 0 : ℕ) : Int) -
          desiredCount bal.releaseThreshold m < 1
      · rw [if_pos hsr] at h
        rw [Option.some.injEq, Prod.mk.injEq] at h
        obtain ⟨hrel, hbal⟩ := h
        subst hrel
        subst hbal
        refine ⟨fun hc => absurd hc hlen, ?_, ?_⟩
        · intro hc
          cases hc
        · intro m2 hm2
          rw [Option.some.injEq] at hm2
          subst hm2
          exact ⟨fun _ => ⟨rfl, rfl⟩, fun _ hge => absurd hsr (not_lt_of_le hge)⟩
      · rw [if_neg hsr] at h
        cases hsel : selectLoop ids
            ((((lookupKeyD m bal.nodeid 0 : ℕ) : Int) -
              desiredCount bal.releaseThreshold m)).toNat stream fuel 0 [] with
        | none =>
          rw [hsel] at h
          cases h
        | some r =>
          rw [hsel] at h
          rw [Option.some.injEq, Prod.mk.injEq] at h
          obtain ⟨hrel, hbal⟩ := h
          subst hrel
          subst hbal
          refine ⟨fun hc => absurd hc hlen, ?_, ?_⟩
          · intro hc
            cases hc
          · intro m2 hm2
            rw [Option.some.injEq] at hm2
            subst hm2
            refine ⟨fun hc => absurd hc hsr, fun h2 hge => ?_⟩
            have hlen0 : 0 < ids.length := lt_of_lt_of_le (by norm_num) h2
            have hl := selectLoop_length ids _ stream fuel 0 [] r
              (Nat.zero_le _) hsel
            have hs := selectLoop_sound ids _ stream hlen0 fuel 0 [] r
              List.nodup_nil (fun x hx => absurd hx (List.not_mem_nil x)) hsel
            exact ⟨hl, hs.1, hs.2, rfl⟩

/-- C4 witness: cluster counts `n1 ↦ 4, n2 ↦ 0`, three local tasks: the
integer average is 2, desired is `⌈2 × 1.2⌉ = 3`, so one task is released
and the cooldown is `now + 1`. -/
theorem c4_witness :
    (["a"] : List String).length =
      (((lookupKeyD [("n1", 4), ("n2", 0)] "n1" 0 : ℕ) : Int) -
        desiredCount (mkRat 6 5) [("n1", 4), ("n2", 0)]).toNat ∧
    (["a"] : List String).Nodup ∧
    (∀ t ∈ (["a"] : List String), t ∈ (["a", "b", "c"] : List String)) ∧
    (⟨"n1", mkRat 6 5, 11⟩ : FBState).delay = 10 + (["a"] : List String).length :=
  ((c4_fair_balance ⟨"n1", mkRat 6 5, 0⟩ 10 ["a", "b", "c"]
      (some [("n1", 4), ("n2", 0)]) (fun k => k) 5 ["a"] ⟨"n1", mkRat 6 5, 11⟩
      (by decide)).2.2 [("n1", 4), ("n2", 0)] rfl).2 (by decide) (by decide)

/-- C10: with at least 2 local tasks and a positive release quota `sr`,
the selection loop of `FairBalancer.Balance` terminates when `sr` is at most
the number of distinct local task IDs, for every random stream that can
reach each index (as a true `rand.Intn` stream can); and when `sr` exceeds
the number of distinct local IDs the loop can never finish — for every fuel
bound it fails — because it exits only after gathering `sr` distinct IDs. -/
theorem c10_selection_termination (bal : FBState) (now : Nat)
    (ids : List String) (cur : List (String × Nat)) (stream : Nat → Nat)
    (hids : 2 ≤ ids.length)
    (hsr : 1 ≤ ((lookupKeyD cur bal.nodeid 0 : ℕ) : Int) -
        desiredCount bal.releaseThreshold cur) :
    (((((lookupKeyD cur bal.nodeid 0 : ℕ) : Int) -
          desiredCount bal.releaseThreshold cur)).toNat ≤ ids.dedup.length →
      (∀ i, i < ids.length → ∃ k, stream k % ids.length = i) →
      ∃ fuel rel bal2,
        fairBalance bal now ids (some cur) stream fuel = some (rel, bal2)) ∧
    (ids.dedup.length <
        ((((lookupKeyD cur bal.nodeid 0 : ℕ) : Int) -
          desiredCount bal.releaseThreshold cur)).toNat →
      ∀ fuel, fairBalance bal now ids (some cur) stream fuel = none) := by
  have hlen0 : 0 < ids.length := lt_of_lt_of_le (by norm_num) hids
  have hnlt : ¬ ids.length < 2 := Nat.not_lt_of_le hids
  have hnsr : ¬ (((lookupKeyD cur bal.nodeid 0 : ℕ) : Int) -
      desiredCount bal.releaseThreshold cur < 1) := not_lt_of_le hsr
  constructor
  · intro hle hcov
    obtain ⟨m, hhit⟩ := coverage_bound ids.length stream hcov
    have hacc := accum_length_ge ids stream m hhit
    have hsome := selectLoop_of_accum ids
      ((((lookupKeyD cur bal.nodeid 0 : ℕ) : Int) -
        desiredCount bal.releaseThreshold cur)).toNat stream m 0 []
      (le_trans hle hacc)
    rcases Option.isSome_iff_exists.mp hsome with ⟨r, hr⟩
    refine ⟨m, r, { bal with delay := now + r.length }, ?_⟩
    simp only [fairBalance.eq_def, if_neg hnlt, if_neg hnsr, hr]
  · intro hgt fuel
    have hstuck := selectLoop_stuck ids
      ((((lookupKeyD cur bal.nodeid 0 : ℕ) : Int) -
        desiredCount bal.releaseThreshold cur)).toNat stream hlen0 hgt fuel 0 []
      List.nodup_nil (fun x hx => absurd hx (List.not_mem_nil x))
    simp only [fairBalance.eq_def, if_neg hnlt, if_neg hnsr, hstuck]

/-- C10 witness: three distinct local tasks, quota 1 (counts `n1 ↦ 4`,
desired 3): with the identity stream, which reaches every index, the loop
terminates; and with quota 4 against only 3 distinct IDs (counts `n1 ↦ 10`,
desired 6) the loop fails for every fuel bound. -/
theorem c10_witness :
    (∃ fuel rel bal2,
      fairBalance ⟨"n1", mkRat 6 5, 0⟩ 10 ["a", "b", "c"]
        (some [("n1", 4), ("n2", 0)]) (fun k => k) fuel = some (rel, bal2)) ∧
    (∀ fuel, fairBalance ⟨"n1", mkRat 6 5, 0⟩ 10 ["a", "b", "c"]
        (some [("n1", 10), ("n2", 0)]) (fun k => k) fuel = none) := by
  constructor
  · exact (c10_selection_termination ⟨"n1", mkRat 6 5, 0⟩ 10 ["a", "b", "c"]
      [("n1", 4), ("n2", 0)] (fun k => k) (by decide) (by decide)).1 (by decide)
      (fun i hi => ⟨i, Nat.mod_eq_of_lt hi⟩)
  · exact (c10_selection_termination ⟨"n1", mkRat 6 5, 0⟩ 10 ["a", "b", "c"]
      [("n1", 10), ("n2", 0)] (fun k => k) (by decide) (by decide)).2 (by decide)

end Metafora
